import Mathlib

/-!
Verification of the level-encoding and batched column-transcode logic of
`test-parquet-read-records` (src/src/main.rs), as a shallow embedding.

The `RepeatedWriter` struct (main.rs lines 19-62) accumulates three flat
arrays (values, definition levels, repetition levels) from per-record value
lists.  The transcode loop in `main` (lines 100-147) copies every row group
and column of a source container to a destination in bounded batches.
-/

namespace TPRR

/-- The leaf value type of the column: `parquet::data_type::ByteArray`,
an opaque byte string, modelled as a list of bytes. -/
abbrev ByteArray := List Nat

/-- Struct `RepeatedWriter` (main.rs lines 19-24): three growable arrays.
Levels are `i16` in the source; the code only ever appends the literals
0 and 1, so `Int` represents them exactly. -/
structure RepeatedWriter where
  values : List ByteArray
  def_levels : List Int
  rep_levels : List Int
deriving DecidableEq, Repr

/-- Constructor `RepeatedWriter::new` (main.rs lines 27-33): all three arrays empty. -/
def RepeatedWriter.new : RepeatedWriter :=
  { values := [], def_levels := [], rep_levels := [] }

/-- Method `RepeatedWriter::push` (main.rs lines 35-49).  For an empty input
sequence it pushes one 0 onto `def_levels` and one 0 onto `rep_levels`;
otherwise it resizes `def_levels` by `num` ones, pushes a 0 onto
`rep_levels`, resizes `rep_levels` by `num - 1` ones, and extends
`values` with the input sequence. -/
def RepeatedWriter.push (w : RepeatedWriter) (vs : List ByteArray) : RepeatedWriter :=
  let num := vs.length
  if num = 0 then
    { w with
      def_levels := w.def_levels ++ [0]
      rep_levels := w.rep_levels ++ [0] }
  else
    { values := w.values ++ vs
      def_levels := w.def_levels ++ List.replicate num 1
      rep_levels := (w.rep_levels ++ [0]) ++ List.replicate (num - 1) 1 }

/-- Accessor `RepeatedWriter::def_levels` (main.rs lines 55-57):
always returns `Some` of the accumulated array. -/
def RepeatedWriter.defLevelsView (w : RepeatedWriter) : Option (List Int) :=
  some w.def_levels

/-- Accessor `RepeatedWriter::rep_levels` (main.rs lines 59-61):
always returns `Some` of the accumulated array. -/
def RepeatedWriter.repLevelsView (w : RepeatedWriter) : Option (List Int) :=
  some w.rep_levels

/-- Push a whole sequence of record lists, in order, onto a writer. -/
def RepeatedWriter.pushAll (w : RepeatedWriter) (L : List (List ByteArray)) :
    RepeatedWriter :=
  L.foldl RepeatedWriter.push w

/-- The definition levels one `push` of list `l` appends. -/
def encDef (l : List ByteArray) : List Int :=
  if l.length = 0 then [0] else List.replicate l.length 1

/-- The repetition levels one `push` of list `l` appends. -/
def encRep (l : List ByteArray) : List Int :=
  if l.length = 0 then [0] else 0 :: List.replicate (l.length - 1) 1

theorem push_def_levels (w : RepeatedWriter) (vs : List ByteArray) :
    (w.push vs).def_levels = w.def_levels ++ encDef vs := by
  unfold RepeatedWriter.push encDef
  by_cases h : vs.length = 0 <;> simp [h]

theorem push_rep_levels (w : RepeatedWriter) (vs : List ByteArray) :
    (w.push vs).rep_levels = w.rep_levels ++ encRep vs := by
  unfold RepeatedWriter.push encRep
  by_cases h : vs.length = 0 <;> simp [h]

theorem push_values (w : RepeatedWriter) (vs : List ByteArray) :
    (w.push vs).values = w.values ++ vs := by
  unfold RepeatedWriter.push
  by_cases h : vs.length = 0
  · simp [h, List.length_eq_zero.mp h]
  · simp [h]

/-- C1: For every call to `RepeatedWriter::push` with a sequence of values:
if the sequence is empty, exactly one definition level 0 and one repetition
level 0 are appended and the values array is unchanged; if the sequence has
N ≥ 1 elements, exactly N definition levels of value 1 are appended, one
repetition level 0 followed by N−1 repetition levels of value 1 are
appended, and all N values are appended in order to the values array. -/
theorem C1_push_appends (w : RepeatedWriter) (vs : List ByteArray) :
    (vs = [] →
      (w.push vs).def_levels = w.def_levels ++ [0] ∧
      (w.push vs).rep_levels = w.rep_levels ++ [0] ∧
      (w.push vs).values = w.values) ∧
    (vs ≠ [] →
      (w.push vs).def_levels = w.def_levels ++ List.replicate vs.length 1 ∧
      (w.push vs).rep_levels =
        w.rep_levels ++ [0] ++ List.replicate (vs.length - 1) 1 ∧
      (w.push vs).values = w.values ++ vs) := by
  constructor
  · intro h
    subst h
    refine ⟨?_, ?_, ?_⟩ <;>
      simp [push_def_levels, push_rep_levels, push_values, encDef, encRep]
  · intro h
    have hl : vs.length ≠ 0 := by simpa using h
    refine ⟨?_, ?_, ?_⟩ <;>
      simp [push_def_levels, push_rep_levels, push_values, encDef, encRep, hl]

theorem C1_push_appends_witness :
    ((RepeatedWriter.new.push []).def_levels = RepeatedWriter.new.def_levels ++ [0] ∧
      (RepeatedWriter.new.push []).rep_levels = RepeatedWriter.new.rep_levels ++ [0] ∧
      (RepeatedWriter.new.push []).values = RepeatedWriter.new.values) ∧
    ((RepeatedWriter.new.push [[5]]).def_levels =
        RepeatedWriter.new.def_levels ++ List.replicate 1 1 ∧
      (RepeatedWriter.new.push [[5]]).rep_levels =
        RepeatedWriter.new.rep_levels ++ [0] ++ List.replicate 0 1 ∧
      (RepeatedWriter.new.push [[5]]).values = RepeatedWriter.new.values ++ [[5]]) :=
  ⟨(C1_push_appends RepeatedWriter.new []).1 rfl,
   (C1_push_appends RepeatedWriter.new [[5]]).2 (by decide)⟩

theorem pushAll_arrays (L : List (List ByteArray)) :
    ∀ w : RepeatedWriter,
      (w.pushAll L).def_levels = w.def_levels ++ L.flatMap encDef ∧
      (w.pushAll L).rep_levels = w.rep_levels ++ L.flatMap encRep ∧
      (w.pushAll L).values = w.values ++ L.flatten := by
  induction L with
  | nil => intro w; simp [RepeatedWriter.pushAll]
  | cons l L ih =>
    intro w
    have h := ih (w.push l)
    simp only [RepeatedWriter.pushAll, List.foldl_cons] at h ⊢
    rw [h.1, h.2.1, h.2.2, push_def_levels, push_rep_levels, push_values]
    simp

theorem countP_one_replicate (n : Nat) :
    (List.replicate n (1 : Int)).countP (fun d => d == 1) = n := by
  induction n with
  | zero => rfl
  | succ n ih => simp [List.replicate_succ, List.countP_cons, ih]

theorem encDef_length (l : List ByteArray) :
    (encDef l).length = (encRep l).length := by
  unfold encDef encRep
  by_cases h : l.length = 0
  · simp [h]
  · simp [h]
    omega

theorem encDef_countP (l : List ByteArray) :
    (encDef l).countP (fun d => d == 1) = l.length := by
  unfold encDef
  by_cases h : l.length = 0 <;> simp [h, countP_one_replicate, List.countP_cons]

theorem flatMap_encDef_length (L : List (List ByteArray)) :
    (L.flatMap encDef).length = (L.flatMap encRep).length := by
  induction L with
  | nil => rfl
  | cons l L ih =>
    simp only [List.flatMap_cons, List.length_append]
    rw [encDef_length, ih]

theorem flatten_length_countP (L : List (List ByteArray)) :
    L.flatten.length = (L.flatMap encDef).countP (fun d => d == 1) := by
  induction L with
  | nil => rfl
  | cons l L ih =>
    simp only [List.flatMap_cons, List.flatten_cons, List.length_append,
      List.countP_append]
    rw [encDef_countP, ih]

/-- C2: After every finite sequence of `RepeatedWriter::push` calls starting
from a new `RepeatedWriter`, the state satisfies:
`len(def_levels) == len(rep_levels)`, `len(values)` equals the number of
def_levels entries equal to 1, and per pushed record the emitted repetition
levels are a 0 for the first slot followed by 1s for the continuation slots
of the same list (an empty record contributing the single slot `[0]`). -/
theorem C2_invariant (L : List (List ByteArray)) :
    (RepeatedWriter.new.pushAll L).def_levels.length =
      (RepeatedWriter.new.pushAll L).rep_levels.length ∧
    (RepeatedWriter.new.pushAll L).values.length =
      (RepeatedWriter.new.pushAll L).def_levels.countP (fun d => d == 1) ∧
    (RepeatedWriter.new.pushAll L).rep_levels =
      L.flatMap (fun l =>
        if l.length = 0 then [0] else 0 :: List.replicate (l.length - 1) 1) ∧
    (RepeatedWriter.new.pushAll L).def_levels =
      L.flatMap (fun l =>
        if l.length = 0 then [0] else List.replicate l.length 1) := by
  obtain ⟨hd, hr, hv⟩ := pushAll_arrays L RepeatedWriter.new
  rw [hd, hr, hv]
  simp only [RepeatedWriter.new, List.nil_append]
  exact ⟨flatMap_encDef_length L, flatten_length_countP L, rfl, rfl⟩

/-- C4: Pushing an empty list and then a 2-element list into a new
`RepeatedWriter` yields def_levels `[0,1,1]`, rep_levels `[0,0,1]`, and a
values array containing exactly the 2 elements of the second list in
order. -/
theorem C4_empty_then_pair (a b : ByteArray) :
    ((RepeatedWriter.new.push []).push [a, b]).def_levels = [0, 1, 1] ∧
    ((RepeatedWriter.new.push []).push [a, b]).rep_levels = [0, 0, 1] ∧
    ((RepeatedWriter.new.push []).push [a, b]).values = [a, b] := by
  refine ⟨rfl, rfl, rfl⟩

/-- C9: For every state of a `RepeatedWriter` (including the freshly
constructed empty state), the accessors `def_levels()` and `rep_levels()`
always return `Some` of the accumulated level array, never `None`. -/
theorem C9_accessors_some (w : RepeatedWriter) :
    w.defLevelsView = some w.def_levels ∧
    w.repLevelsView = some w.rep_levels ∧
    w.defLevelsView.isSome = true ∧
    w.repLevelsView.isSome = true :=
  ⟨rfl, rfl, rfl, rfl⟩

/-- C10: `RepeatedWriter::push` is append-only: the previous contents of
the values, def_levels and rep_levels arrays are each a prefix of the
corresponding array after the push (there is a suffix extending each);
no existing entry is modified or removed. -/
theorem C10_push_append_only (w : RepeatedWriter) (vs : List ByteArray) :
    ∃ dv dd dr,
      (w.push vs).values = w.values ++ dv ∧
      (w.push vs).def_levels = w.def_levels ++ dd ∧
      (w.push vs).rep_levels = w.rep_levels ++ dr :=
  ⟨vs, encDef vs, encRep vs, push_values w vs, push_def_levels w vs,
    push_rep_levels w vs⟩

theorem length_dropWhile_le_own {α : Type} (p : α → Bool) (l : List α) :
    (l.dropWhile p).length ≤ l.length := by
  induction l with
  | nil => simp
  | cons a l ih =>
    by_cases h : p a
    · rw [List.dropWhile_cons_of_pos h]
      exact Nat.le_succ_of_le ih
    · rw [List.dropWhile_cons_of_neg h]

/-- A slot list that is positioned at a record boundary: it is empty or its
first slot has repetition level 0. -/
def headRepZero (S : List (Int × Int)) : Prop :=
  match S with
  | [] => True
  | p :: _ => p.2 = 0

/-- Modelled from the spec: the inverse of the level scheme of section 3.
The repository has no decoder; this is the reading direction of the triple
scheme.  Slots are (definition level, repetition level) pairs walked record
by record: each record starts at a slot with repetition level 0, the
following slots with repetition level 1 continue the same list, and each
slot with definition level 1 consumes one value from the values array. -/
def decode (slots : List (Int × Int)) (vs : List ByteArray) :
    List (List ByteArray) :=
  match slots with
  | [] => []
  | (d, _) :: rest =>
    let n := ((d :: (rest.takeWhile (fun p => p.2 == 1)).map Prod.fst).countP
      (fun x => x == 1))
    vs.take n :: decode (rest.dropWhile (fun p => p.2 == 1)) (vs.drop n)
termination_by slots.length
decreasing_by
  simp only [List.length_cons]
  exact Nat.lt_succ_of_le (length_dropWhile_le_own _ rest)

/-- The (def level, rep level) slot pairs one `push` of list `l` emits. -/
def recSlots (l : List ByteArray) : List (Int × Int) :=
  (encDef l).zip (encRep l)

theorem recSlots_nil : recSlots [] = [((0 : Int), (0 : Int))] := rfl

theorem recSlots_cons (a : ByteArray) (as : List ByteArray) :
    recSlots (a :: as) =
      ((1 : Int), (0 : Int)) :: List.replicate as.length ((1 : Int), (1 : Int)) := by
  unfold recSlots encDef encRep
  simp [List.replicate_succ, List.zip_replicate]

theorem takeWhile_ones_append (k : Nat) (S : List (Int × Int))
    (hS : headRepZero S) :
    (List.replicate k ((1 : Int), (1 : Int)) ++ S).takeWhile
        (fun p => p.2 == 1) = List.replicate k ((1 : Int), (1 : Int)) ∧
    (List.replicate k ((1 : Int), (1 : Int)) ++ S).dropWhile
        (fun p => p.2 == 1) = S := by
  induction k with
  | zero =>
    simp only [List.replicate, List.nil_append]
    cases S with
    | nil => simp
    | cons p S' =>
      have hp : p.2 = 0 := hS
      constructor
      · apply List.takeWhile_cons_of_neg
        simp [hp]
      · apply List.dropWhile_cons_of_neg
        simp [hp]
  | succ k ih =>
    rw [List.replicate_succ]
    simp only [List.cons_append]
    rw [List.takeWhile_cons_of_pos (by simp), List.dropWhile_cons_of_pos (by simp)]
    exact ⟨by rw [ih.1], ih.2⟩

theorem headRepZero_recSlots_append (l : List ByteArray) (S : List (Int × Int)) :
    headRepZero (recSlots l ++ S) := by
  cases l with
  | nil =>
    rw [recSlots_nil]
    simp [headRepZero]
  | cons a as =>
    rw [recSlots_cons]
    simp [headRepZero]

theorem decode_record (l : List ByteArray) (S : List (Int × Int))
    (vs : List ByteArray) (hS : headRepZero S) :
    decode (recSlots l ++ S) (l ++ vs) = l :: decode S vs := by
  cases l with
  | nil =>
    rw [recSlots_nil]
    obtain ⟨ht, hd⟩ := takeWhile_ones_append 0 S hS
    simp only [List.replicate, List.nil_append] at ht hd
    simp only [List.cons_append, List.nil_append, decode, ht, hd]
    simp [List.countP_cons]
  | cons a as =>
    rw [recSlots_cons]
    obtain ⟨ht, hd⟩ := takeWhile_ones_append as.length S hS
    simp only [List.cons_append, decode, ht, hd, List.map_replicate]
    have hn : ((1 : Int) :: List.replicate as.length (1 : Int)).countP
        (fun x => x == 1) = (a :: as).length := by
      simp [List.countP_cons, countP_one_replicate]
    rw [hn]
    have h1 : List.take (a :: as).length ((a :: as) ++ vs) = a :: as :=
      List.take_left (a :: as) vs
    have h2 : List.drop (a :: as).length ((a :: as) ++ vs) = vs :=
      List.drop_left (a :: as) vs
    simp only [List.cons_append] at h1 h2
    rw [h1, h2]

theorem headRepZero_flatMap (L : List (List ByteArray)) :
    headRepZero (L.flatMap recSlots) := by
  cases L with
  | nil => trivial
  | cons l L =>
    rw [List.flatMap_cons]
    exact headRepZero_recSlots_append l _

theorem decode_flatMap (L : List (List ByteArray)) :
    decode (L.flatMap recSlots) L.flatten = L := by
  induction L with
  | nil => simp [decode]
  | cons l L ih =>
    rw [List.flatMap_cons, List.flatten_cons,
      decode_record l _ _ (headRepZero_flatMap L), ih]

theorem zip_flatMap_enc (L : List (List ByteArray)) :
    (L.flatMap encDef).zip (L.flatMap encRep) = L.flatMap recSlots := by
  induction L with
  | nil => rfl
  | cons l L ih =>
    simp only [List.flatMap_cons]
    rw [List.zip_append (encDef_length l), ih]
    rfl

/-- C3: For every finite sequence of record lists `L` (each list possibly
empty), pushing each list in order into a new `RepeatedWriter` and then
decoding the resulting (values, def_levels, rep_levels) triple by the
inverse of the level scheme of spec section 3 reconstructs exactly `L`,
with empty lists appearing as zero-length entries rather than being
omitted. -/
theorem C3_roundtrip (L : List (List ByteArray)) :
    decode ((RepeatedWriter.new.pushAll L).def_levels.zip
        (RepeatedWriter.new.pushAll L).rep_levels)
      (RepeatedWriter.new.pushAll L).values = L := by
  obtain ⟨hd, hr, hv⟩ := pushAll_arrays L RepeatedWriter.new
  rw [hd, hr, hv]
  simp only [RepeatedWriter.new, List.nil_append]
  rw [zip_flatMap_enc, decode_flatMap]

/-- Physical column types of the engine (`parquet::basic::Type`); the
transcode loop in `main` only implements the byte-array variant
(main.rs lines 114-123). -/
inductive PhysicalType
  | boolean
  | int32
  | int64
  | int96
  | float
  | double
  | byteArray
  | fixedLenByteArray
deriving DecidableEq, Repr

/-- One successful `read_records` response (main.rs lines 114-123): the
counts returned (`total_records_read`, `values_read`, `levels_read`) plus
the contents of the three batch buffers after the call. -/
structure BatchResp where
  recordsRead : Nat
  valuesRead : Nat
  levelsRead : Nat
  valuesBuf : List ByteArray
  defBuf : List Int
  repBuf : List Int
deriving DecidableEq, Repr

/-- The loop-exit test (main.rs line 129): both counts zero. -/
def BatchResp.stop (r : BatchResp) : Bool :=
  r.valuesRead == 0 && r.levelsRead == 0

/-- One `write_batch` call (main.rs lines 134-138): the prefix of the value
buffer of length `values_read` and the prefixes of the two level buffers
each of length `levels_read`. -/
structure WriteCall where
  values : List ByteArray
  defLevels : List Int
  repLevels : List Int
deriving DecidableEq, Repr

/-- The write call made from one batch response (main.rs lines 134-138). -/
def writeOf (r : BatchResp) : WriteCall :=
  { values := r.valuesBuf.take r.valuesRead
    defLevels := r.defBuf.take r.levelsRead
    repLevels := r.repBuf.take r.levelsRead }

/-- A source column: its physical type and the sequence of successful
`read_records` responses its reader produces. -/
structure ColumnR where
  ptype : PhysicalType
  batches : List BatchResp
deriving DecidableEq, Repr

/-- The spec's error taxonomy (section 7); the code realizes
SchemaMismatch and UnsupportedType as aborts (`expect`, `panic`) and
EngineError as a propagated `Err`. -/
inductive TError
  | schemaMismatch
  | unsupportedType
  | engineError
deriving DecidableEq, Repr

/-- Observable destination-side events of a transcode, in order. -/
inductive Event
  | wrote (w : WriteCall)
  | closedColumn
  | closedRowGroup
deriving DecidableEq, Repr

/-- The per-column batch loop (main.rs lines 113-141), parametrised by the
destination writer's accepted-count function `wret` (the `values_written`
result, observed and logged only).  Returns the ordered write calls, each
with the accepted count observed for it, and whether the loop exited
through the (0,0) test (`false`: the response sequence ran out with the
loop still demanding data). -/
def columnLoop (wret : WriteCall → Nat) :
    List BatchResp → List (WriteCall × Nat) × Bool
  | [] => ([], false)
  | r :: rest =>
    if r.stop then ([], true)
    else
      let w := writeOf r
      let res := columnLoop wret rest
      ((w, wret w) :: res.1, res.2)

/-- Process one column (main.rs lines 104-143): the type match panics on
every non-byte-array reader before any data moves; otherwise the batch
loop runs and the column writer is closed after the loop exits. -/
def processColumn (wret : WriteCall → Nat) (c : ColumnR) :
    List Event × Option TError :=
  match c.ptype with
  | PhysicalType.byteArray =>
    let res := columnLoop wret c.batches
    if res.2 then
      (res.1.map (fun p => Event.wrote p.1) ++ [Event.closedColumn], none)
    else
      (res.1.map (fun p => Event.wrote p.1), some TError.engineError)
  | _ => ([], some TError.unsupportedType)

/-- Process the columns of one row group in order (main.rs lines 104-144).
`used` counts the destination column writers already taken;
`next_column()` yields one while `used < destCols` and `None` afterwards,
which the code treats as fatal (the `expect` on main.rs line 109). -/
def processCols (wret : WriteCall → Nat) (destCols : Nat) :
    List ColumnR → Nat → List Event × Option TError
  | [], _ => ([], none)
  | c :: rest, used =>
    if used < destCols then
      match processColumn wret c with
      | (evs, none) =>
        let res := processCols wret destCols rest (used + 1)
        (evs ++ res.1, res.2)
      | (evs, some e) => (evs, some e)
    else
      ([], some TError.schemaMismatch)

/-- Process every row group in order (main.rs lines 100-147); each row
group writer is closed after all its columns. -/
def processRowGroups (wret : WriteCall → Nat) (destCols : Nat) :
    List (List ColumnR) → List Event × Option TError
  | [] => ([], none)
  | rg :: rest =>
    match processCols wret destCols rg 0 with
    | (evs, none) =>
      let res := processRowGroups wret destCols rest
      (evs ++ [Event.closedRowGroup] ++ res.1, res.2)
    | (evs, some e) => (evs, some e)

/-- The whole transcode of `main` (main.rs lines 100-147) over a source
container given by its row groups' columns and a destination whose schema
provides `destCols` column writers per row group. -/
def transcode (wret : WriteCall → Nat) (destCols : Nat)
    (src : List (List ColumnR)) : List Event × Option TError :=
  processRowGroups wret destCols src

theorem columnLoop_ok_iff (wret : WriteCall → Nat) (bs : List BatchResp) :
    (columnLoop wret bs).2 = true ↔ ∃ r ∈ bs, r.stop = true := by
  induction bs with
  | nil => simp [columnLoop]
  | cons r rest ih =>
    by_cases h : r.stop
    · simp [columnLoop, h]
    · simp [columnLoop, h, ih]

theorem columnLoop_writes (wret : WriteCall → Nat) (bs : List BatchResp) :
    (columnLoop wret bs).1.map Prod.fst =
      (bs.takeWhile (fun r => !r.stop)).map writeOf := by
  induction bs with
  | nil => rfl
  | cons r rest ih =>
    by_cases h : r.stop
    · rw [List.takeWhile_cons_of_neg (by simp [h])]
      simp [columnLoop, h]
    · rw [List.takeWhile_cons_of_pos (by simp [h])]
      simp [columnLoop, h, ih]

theorem columnLoop_snd_indep (wret wret' : WriteCall → Nat)
    (bs : List BatchResp) :
    (columnLoop wret bs).2 = (columnLoop wret' bs).2 := by
  induction bs with
  | nil => rfl
  | cons r rest ih =>
    by_cases h : r.stop <;> simp [columnLoop, h, ih]

/-- C5: For every column, the transcoder's per-column batch loop stops
reading and closes the column exactly when a single `read_records` request
returns both `values_read == 0` and `levels_read == 0`; under the
precondition that the reader eventually returns such a (0,0) response, the
loop terminates, having written one batch per earlier response and then
closed the column. -/
theorem C5_loop_termination (wret : WriteCall → Nat) (c : ColumnR)
    (hty : c.ptype = PhysicalType.byteArray) :
    ((processColumn wret c).2 = none ↔ ∃ r ∈ c.batches, r.stop = true) ∧
    ((∃ r ∈ c.batches, r.stop = true) →
      (processColumn wret c).1 =
        (c.batches.takeWhile (fun r => !r.stop)).map
          (fun r => Event.wrote (writeOf r)) ++ [Event.closedColumn]) := by
  rcases c with ⟨pt, bs⟩
  simp only at hty
  subst hty
  constructor
  · rw [← columnLoop_ok_iff wret bs]
    by_cases hok : (columnLoop wret bs).2 = true
    · simp [processColumn, hok]
    · simp [processColumn, hok]
  · intro hex
    have hok : (columnLoop wret bs).2 = true := (columnLoop_ok_iff wret bs).mpr hex
    simp only [processColumn, hok, if_true]
    have h1 : (columnLoop wret bs).1.map (fun p => Event.wrote p.1) =
        ((columnLoop wret bs).1.map Prod.fst).map Event.wrote := by
      rw [List.map_map]
      rfl
    rw [h1, columnLoop_writes wret bs, List.map_map]
    rfl

theorem C5_loop_termination_witness :
    ((processColumn (fun _ => 0)
        ⟨PhysicalType.byteArray, [⟨0, 0, 0, [], [], []⟩]⟩).2 = none ↔
      ∃ r ∈ [(⟨0, 0, 0, [], [], []⟩ : BatchResp)], r.stop = true) ∧
    (processColumn (fun _ => 0)
        ⟨PhysicalType.byteArray, [⟨0, 0, 0, [], [], []⟩]⟩).1 =
      (([(⟨0, 0, 0, [], [], []⟩ : BatchResp)].takeWhile
          (fun r => !r.stop)).map
        (fun r => Event.wrote (writeOf r))) ++ [Event.closedColumn] :=
  ⟨(C5_loop_termination (fun _ => 0)
      ⟨PhysicalType.byteArray, [⟨0, 0, 0, [], [], []⟩]⟩ rfl).1,
    (C5_loop_termination (fun _ => 0)
      ⟨PhysicalType.byteArray, [⟨0, 0, 0, [], [], []⟩]⟩ rfl).2 (by decide)⟩

/-- C6: For every batch in which not both counts are zero, exactly one
write call is made to the destination column, passing the value slice of
length `values_read` and the definition-level and repetition-level slices
each of length `levels_read` (given the engine contract that reported
counts do not exceed the buffer sizes); the count of values accepted by
the writer is observed but the loop's writes and exit do not depend on
it. -/
theorem C6_write_slices (wret wret' : WriteCall → Nat) (r : BatchResp)
    (rest : List BatchResp) (hstop : r.stop = false)
    (hv : r.valuesRead ≤ r.valuesBuf.length)
    (hdl : r.levelsRead ≤ r.defBuf.length)
    (hrl : r.levelsRead ≤ r.repBuf.length) :
    (columnLoop wret (r :: rest)).1 =
      (writeOf r, wret (writeOf r)) :: (columnLoop wret rest).1 ∧
    (writeOf r).values.length = r.valuesRead ∧
    (writeOf r).defLevels.length = r.levelsRead ∧
    (writeOf r).repLevels.length = r.levelsRead ∧
    (columnLoop wret (r :: rest)).1.map Prod.fst =
      (columnLoop wret' (r :: rest)).1.map Prod.fst ∧
    (columnLoop wret (r :: rest)).2 = (columnLoop wret' (r :: rest)).2 := by
  refine ⟨?_, ?_, ?_, ?_, ?_, ?_⟩
  · simp [columnLoop, hstop]
  · simp [writeOf, List.length_take, Nat.min_eq_left hv]
  · simp [writeOf, List.length_take, Nat.min_eq_left hdl]
  · simp [writeOf, List.length_take, Nat.min_eq_left hrl]
  · rw [columnLoop_writes wret, columnLoop_writes wret']
  · exact columnLoop_snd_indep wret wret' (r :: rest)

theorem C6_write_slices_witness :
    ((⟨1, 1, 1, [[7]], [1], [0]⟩ : BatchResp).stop = false ∧
      (⟨1, 1, 1, [[7]], [1], [0]⟩ : BatchResp).valuesRead ≤
        (⟨1, 1, 1, [[7]], [1], [0]⟩ : BatchResp).valuesBuf.length) ∧
    ((columnLoop (fun _ => 0)
        [(⟨1, 1, 1, [[7]], [1], [0]⟩ : BatchResp)]).1 =
      (writeOf ⟨1, 1, 1, [[7]], [1], [0]⟩,
        (fun _ => 0) (writeOf ⟨1, 1, 1, [[7]], [1], [0]⟩)) ::
        (columnLoop (fun _ => 0) []).1 ∧
    (writeOf (⟨1, 1, 1, [[7]], [1], [0]⟩ : BatchResp)).values.length =
      (⟨1, 1, 1, [[7]], [1], [0]⟩ : BatchResp).valuesRead ∧
    (writeOf (⟨1, 1, 1, [[7]], [1], [0]⟩ : BatchResp)).defLevels.length =
      (⟨1, 1, 1, [[7]], [1], [0]⟩ : BatchResp).levelsRead ∧
    (writeOf (⟨1, 1, 1, [[7]], [1], [0]⟩ : BatchResp)).repLevels.length =
      (⟨1, 1, 1, [[7]], [1], [0]⟩ : BatchResp).levelsRead ∧
    (columnLoop (fun _ => 0)
        [(⟨1, 1, 1, [[7]], [1], [0]⟩ : BatchResp)]).1.map Prod.fst =
      (columnLoop (fun _ => 5)
        [(⟨1, 1, 1, [[7]], [1], [0]⟩ : BatchResp)]).1.map Prod.fst ∧
    (columnLoop (fun _ => 0)
        [(⟨1, 1, 1, [[7]], [1], [0]⟩ : BatchResp)]).2 =
      (columnLoop (fun _ => 5)
        [(⟨1, 1, 1, [[7]], [1], [0]⟩ : BatchResp)]).2) :=
  ⟨⟨by decide, by decide⟩,
    C6_write_slices (fun _ => 0) (fun _ => 5) ⟨1, 1, 1, [[7]], [1], [0]⟩ []
      (by decide) (by decide) (by decide) (by decide)⟩

theorem processColumn_none_type (wret : WriteCall → Nat) (c : ColumnR)
    (h : (processColumn wret c).2 = none) :
    c.ptype = PhysicalType.byteArray := by
  rcases c with ⟨pt, bs⟩
  cases pt <;> first | rfl | (exfalso; simp [processColumn] at h)

theorem processCols_none_good (wret : WriteCall → Nat) (destCols : Nat)
    (cols : List ColumnR) :
    ∀ used : Nat, (processCols wret destCols cols used).2 = none →
      ∀ c ∈ cols, c.ptype = PhysicalType.byteArray := by
  induction cols with
  | nil =>
    intro used _ c hc
    simp at hc
  | cons c0 rest ih =>
    intro used h c hc
    by_cases hu : used < destCols
    · rcases hpc : processColumn wret c0 with ⟨evs, err⟩
      cases err with
      | none =>
        have hrest : (processCols wret destCols rest (used + 1)).2 = none := by
          simpa [processCols, hu, hpc] using h
        rcases List.mem_cons.mp hc with rfl | hmem
        · exact processColumn_none_type wret c (by rw [hpc])
        · exact ih (used + 1) hrest c hmem
      | some e =>
        exfalso
        simp [processCols, hu, hpc] at h
    · exfalso
      simp [processCols, hu] at h

theorem processCols_bad (wret : WriteCall → Nat) (destCols : Nat)
    (cols : List ColumnR) :
    ∀ used : Nat, (∃ c ∈ cols, c.ptype ≠ PhysicalType.byteArray) →
      ((processCols wret destCols cols used).2).isSome = true := by
  induction cols with
  | nil =>
    intro used h
    simp at h
  | cons c0 rest ih =>
    intro used h
    by_cases hu : used < destCols
    · rcases hpc : processColumn wret c0 with ⟨evs, err⟩
      cases err with
      | none =>
        have hty := processColumn_none_type wret c0 (by rw [hpc])
        rcases h with ⟨c, hc, hcb⟩
        rcases List.mem_cons.mp hc with rfl | hmem
        · exact absurd hty hcb
        · have := ih (used + 1) ⟨c, hmem, hcb⟩
          simpa [processCols, hu, hpc] using this
      | some e => simp [processCols, hu, hpc]
    · simp [processCols, hu]

theorem processRowGroups_bad (wret : WriteCall → Nat) (destCols : Nat)
    (src : List (List ColumnR))
    (h : ∃ rg ∈ src, ∃ c ∈ rg, c.ptype ≠ PhysicalType.byteArray) :
    ((processRowGroups wret destCols src).2).isSome = true := by
  induction src with
  | nil => simp at h
  | cons rg rest ih =>
    rcases hpc : processCols wret destCols rg 0 with ⟨evs, err⟩
    cases err with
    | none =>
      rcases h with ⟨rg', hrg', c, hc, hcb⟩
      rcases List.mem_cons.mp hrg' with rfl | hmem
      · exact absurd
          (processCols_none_good wret destCols rg' 0 (by rw [hpc]) c hc) hcb
      · have := ih ⟨rg', hmem, c, hc, hcb⟩
        simpa [processRowGroups, hpc] using this
    | some e => simp [processRowGroups, hpc]

/-- C7: For every source container containing, in any row group, a column
whose physical type is not the byte-string leaf type, the transcode of
that container fails as a whole: it cannot return a success result, so it
never silently skips that column's data. -/
theorem C7_unsupported_type_fatal (wret : WriteCall → Nat) (destCols : Nat)
    (src : List (List ColumnR))
    (h : ∃ rg ∈ src, ∃ c ∈ rg, c.ptype ≠ PhysicalType.byteArray) :
    ((transcode wret destCols src).2).isSome = true :=
  processRowGroups_bad wret destCols src h

theorem C7_unsupported_type_fatal_witness :
    ((transcode (fun _ => 0) 1
        [[⟨PhysicalType.int32, []⟩]]).2).isSome = true :=
  C7_unsupported_type_fatal (fun _ => 0) 1 [[⟨PhysicalType.int32, []⟩]]
    (by decide)

/-- C8 counterexample: with a source row group of two byte-array columns
and a destination schema providing only one column writer, the transcode
does signal SchemaMismatch, but only after the first column has already
been finalized (a `closedColumn` event precedes the failure), refuting the
claim that the mismatch is signalled before any column in the affected row
group is finalized. -/
theorem C8_counterexample :
    (transcode (fun _ => 0) 1
        [[⟨PhysicalType.byteArray, [⟨0, 0, 0, [], [], []⟩]⟩,
          ⟨PhysicalType.byteArray, [⟨0, 0, 0, [], [], []⟩]⟩]]).2 =
      some TError.schemaMismatch ∧
    Event.closedColumn ∈
      (transcode (fun _ => 0) 1
        [[⟨PhysicalType.byteArray, [⟨0, 0, 0, [], [], []⟩]⟩,
          ⟨PhysicalType.byteArray, [⟨0, 0, 0, [], [], []⟩]⟩]]).1 := by
  decide

theorem processColumn_good (wret : WriteCall → Nat) (c : ColumnR)
    (h : c.ptype = PhysicalType.byteArray ∧ ∃ r ∈ c.batches, r.stop = true) :
    (processColumn wret c).2 = none ∧
    (processColumn wret c).1.countP (fun e => e == Event.closedColumn) = 1 ∧
    Event.closedRowGroup ∉ (processColumn wret c).1 := by
  rcases c with ⟨pt, bs⟩
  rcases h with ⟨hty, hex⟩
  simp only at hty
  subst hty
  have hok : (columnLoop wret bs).2 = true :=
    (columnLoop_ok_iff wret bs).mpr (by simpa using hex)
  refine ⟨?_, ?_, ?_⟩
  · simp [processColumn, hok]
  · simp only [processColumn, hok, if_true]
    rw [List.countP_append]
    have hz : ((columnLoop wret bs).1.map (fun p => Event.wrote p.1)).countP
        (fun e => e == Event.closedColumn) = 0 := by
      rw [List.countP_eq_zero]
      intro a ha
      rcases List.mem_map.mp ha with ⟨p, _, rfl⟩
      simp
    rw [hz]
    rfl
  · simp [processColumn, hok]

theorem processCols_mismatch (wret : WriteCall → Nat) (destCols : Nat)
    (cols : List ColumnR) :
    ∀ used : Nat,
      (∀ c ∈ cols, c.ptype = PhysicalType.byteArray ∧
        ∃ r ∈ c.batches, r.stop = true) →
      used ≤ destCols → destCols < used + cols.length →
      (processCols wret destCols cols used).2 = some TError.schemaMismatch ∧
      (processCols wret destCols cols used).1.countP
          (fun e => e == Event.closedColumn) = destCols - used ∧
      Event.closedRowGroup ∉ (processCols wret destCols cols used).1 := by
  induction cols with
  | nil =>
    intro used _ h1 h2
    simp only [List.length_nil] at h2
    exact absurd h2 (by omega)
  | cons c0 rest ih =>
    intro used hgood h1 h2
    by_cases hu : used < destCols
    · obtain ⟨hnone, hcount, hnorg⟩ :=
        processColumn_good wret c0 (hgood c0 (by simp))
      rcases hpc : processColumn wret c0 with ⟨evs, err⟩
      rw [hpc] at hnone hcount hnorg
      simp only at hnone hcount hnorg
      subst hnone
      obtain ⟨ih1, ih2, ih3⟩ := ih (used + 1)
        (fun c hc => hgood c (by simp [hc])) (by omega)
        (by simp only [List.length_cons] at h2; omega)
      refine ⟨?_, ?_, ?_⟩
      · simp only [processCols, hu, if_true, hpc]
        exact ih1
      · simp only [processCols, hu, if_true, hpc]
        rw [List.countP_append, hcount, ih2]
        omega
      · simp only [processCols, hu, if_true, hpc]
        rw [List.mem_append]
        rintro (hmem | hmem)
        · exact hnorg hmem
        · exact ih3 hmem
    · have hused : used = destCols := by omega
      refine ⟨?_, ?_, ?_⟩ <;> simp [processCols, hu, hused]

/-- C8 amended: when the destination provides fewer column writers than a
source row group has columns (and every earlier column transfers
successfully), the transcoder signals SchemaMismatch upon requesting the
first unavailable column writer: exactly the columns at indexes below the
destination's column count have been finalized by then, the mismatched
column is never written or finalized, and the row group is not
finalized. -/
theorem C8_amended_schema_mismatch (wret : WriteCall → Nat) (destCols : Nat)
    (cols : List ColumnR)
    (hgood : ∀ c ∈ cols, c.ptype = PhysicalType.byteArray ∧
      ∃ r ∈ c.batches, r.stop = true)
    (hlt : destCols < cols.length) :
    (transcode wret destCols [cols]).2 = some TError.schemaMismatch ∧
    (transcode wret destCols [cols]).1.countP
        (fun e => e == Event.closedColumn) = destCols ∧
    Event.closedRowGroup ∉ (transcode wret destCols [cols]).1 := by
  obtain ⟨h1, h2, h3⟩ :=
    processCols_mismatch wret destCols cols 0 hgood (Nat.zero_le _) (by omega)
  rcases hpc : processCols wret destCols cols 0 with ⟨evs, err⟩
  rw [hpc] at h1 h2 h3
  simp only at h1 h2 h3
  subst h1
  refine ⟨?_, ?_, ?_⟩ <;> simp [transcode, processRowGroups, hpc, h2, h3]

theorem C8_amended_schema_mismatch_witness :
    ((∀ c ∈ [(⟨PhysicalType.byteArray, [⟨0, 0, 0, [], [], []⟩]⟩ : ColumnR),
        ⟨PhysicalType.byteArray, [⟨0, 0, 0, [], [], []⟩]⟩],
      c.ptype = PhysicalType.byteArray ∧ ∃ r ∈ c.batches, r.stop = true) ∧
      1 < [(⟨PhysicalType.byteArray, [⟨0, 0, 0, [], [], []⟩]⟩ : ColumnR),
        ⟨PhysicalType.byteArray, [⟨0, 0, 0, [], [], []⟩]⟩].length) ∧
    ((transcode (fun _ => 0) 1
        [[⟨PhysicalType.byteArray, [⟨0, 0, 0, [], [], []⟩]⟩,
          ⟨PhysicalType.byteArray, [⟨0, 0, 0, [], [], []⟩]⟩]]).2 =
      some TError.schemaMismatch ∧
    (transcode (fun _ => 0) 1
        [[⟨PhysicalType.byteArray, [⟨0, 0, 0, [], [], []⟩]⟩,
          ⟨PhysicalType.byteArray, [⟨0, 0, 0, [], [], []⟩]⟩]]).1.countP
        (fun e => e == Event.closedColumn) = 1 ∧
    Event.closedRowGroup ∉
      (transcode (fun _ => 0) 1
        [[⟨PhysicalType.byteArray, [⟨0, 0, 0, [], [], []⟩]⟩,
          ⟨PhysicalType.byteArray, [⟨0, 0, 0, [], [], []⟩]⟩]]).1) :=
  ⟨⟨by decide, by decide⟩,
    C8_amended_schema_mismatch (fun _ => 0) 1
      [⟨PhysicalType.byteArray, [⟨0, 0, 0, [], [], []⟩]⟩,
        ⟨PhysicalType.byteArray, [⟨0, 0, 0, [], [], []⟩]⟩]
      (by decide) (by decide)⟩

end TPRR
